import Mathlib

/-!
Verification of the core string algorithms of the BioAnalyzerPro repository
(src/algorithms): exact pattern matching (naive and Boyer-Moore), k-mer
indexing, overlap detection and assembly, edit distance with traceback, and
suffix-array construction.

Sequences are embedded as `List Char`; Python slices `s[i:i+l]` become
`(s.drop i).take l`; Python `range` over a possibly negative bound becomes a
`List Nat` that is empty for non-positive bounds; `while` loops become
fuel-indexed structural recursions whose fuel provably dominates the number of
iterations of the source loop (each loop strictly increases its counter, which
is bounded by the text length); dictionary lookups that can raise `KeyError`
return `Option`/`Except`.
-/

namespace BioAnalyzer

/-- Python slice `s[i:i+l]` (clamped at both ends, as in Python). -/
def pySlice (s : List Char) (i l : Nat) : List Char := (s.drop i).take l

/-- Python `range(z)` for an integer bound `z`: empty when `z ≤ 0`. -/
def pyNatRange (z : Int) : List Nat := List.range z.toNat

/-! ## src/algorithms/pattern_matching.py -/

/-- `naive_match(seq, pattern)`: all `i` with `seq[i:i+len(pattern)] == pattern`,
for `i in range(len(seq) - len(pattern) + 1)`, in ascending order. -/
def naive_match (s p : List Char) : List Nat :=
  (pyNatRange ((s.length : Int) - (p.length : Int) + 1)).filter
    (fun i => decide (pySlice s i p.length = p))

/-- The Bad Character dictionary of `boyer_moore_match`:
`for i, char in enumerate(pattern): bad_char[char] = len(pattern) - 1 - i`
(last write wins). `none` models an absent key. -/
def bad_char_table (p : List Char) : Char → Option Nat :=
  p.enum.foldl
    (fun f pr => fun c => if c = pr.2 then some (p.length - 1 - pr.1) else f c)
    (fun _ => none)

/-- `bad_char.get(c, len(pattern))`. -/
def bad_char_shift (p : List Char) (c : Char) : Nat :=
  (bad_char_table p c).getD p.length

/-- The inner right-to-left scan of `boyer_moore_match`:
`j = len(pattern) - 1; while j >= 0 and pattern[j] == seq[i+j]: j -= 1`.
Returns `some j` for the final mismatch index, `none` if the whole pattern
matched (Python's `j < 0`). The argument is the number of positions still
unchecked, so the scan starts at `p.length`. -/
def bm_mismatch_go (s p : List Char) (i : Nat) : Nat → Option Nat
  | 0 => none
  | j + 1 =>
    if p.getD j 'A' = s.getD (i + j) 'A' then bm_mismatch_go s p i j else some j

def bm_mismatch (s p : List Char) (i : Nat) : Option Nat :=
  bm_mismatch_go s p i p.length

/-- The `while i <= len(seq) - len(pattern)` loop of `boyer_moore_match`.
The loop counter `i` strictly increases each iteration and the loop exits as
soon as `i > len(seq) - len(pattern)`, so `len(seq) + 2` fuel (more than the
maximal possible number of iterations) makes the fuel-out branch unreachable;
`bm_go_fuel_irrelevant` below proves the fuel does not matter once it is at
least `len(seq) + 1 - i`. -/
def bm_go (s p : List Char) : Nat → Nat → List Nat
  | 0, _ => []
  | fuel + 1, i =>
    if (i : Int) ≤ (s.length : Int) - (p.length : Int) then
      match bm_mismatch s p i with
      | none => i :: bm_go s p fuel (i + 1)
      | some j => bm_go s p fuel (i + max 1 (bad_char_shift p (s.getD (i + j) 'A')))
    else []

/-- `boyer_moore_match(seq, pattern)`: `(positions, bad_char)`. -/
def boyer_moore_match (s p : List Char) : List Nat × (Char → Option Nat) :=
  (bm_go s p (s.length + 2) 0, bad_char_table p)

/-- Once the loop guard fails the loop body is never entered, whatever the
fuel. -/
theorem bm_go_guard_false (s p : List Char) {i : Nat}
    (h : ¬ ((i : Int) ≤ (s.length : Int) - (p.length : Int))) :
    ∀ fuel, bm_go s p fuel i = [] := by
  intro fuel
  cases fuel with
  | zero => rfl
  | succ fuel => simp [bm_go, h]

/-- The fuel of `bm_go` is irrelevant as soon as it dominates the remaining
iteration count, so `boyer_moore_match` computes the source's `while` loop. -/
theorem bm_go_fuel_irrelevant (s p : List Char) :
    ∀ fuel fuel' i, s.length + 1 ≤ fuel + i → s.length + 1 ≤ fuel' + i →
      bm_go s p fuel i = bm_go s p fuel' i := by
  intro fuel
  induction fuel with
  | zero =>
      intro fuel' i hi hi'
      have hle : s.length + 1 ≤ i := by omega
      have hguard : ¬ ((i : Int) ≤ (s.length : Int) - (p.length : Int)) := by
        have : (s.length : Int) + 1 ≤ (i : Int) := by exact_mod_cast hle
        omega
      rw [bm_go_guard_false s p hguard, bm_go_guard_false s p hguard]
  | succ fuel ih =>
      intro fuel' i hi hi'
      cases fuel' with
      | zero =>
          have hle : s.length + 1 ≤ i := by omega
          have hguard : ¬ ((i : Int) ≤ (s.length : Int) - (p.length : Int)) := by
            have : (s.length : Int) + 1 ≤ (i : Int) := by exact_mod_cast hle
            omega
          rw [bm_go_guard_false s p hguard, bm_go_guard_false s p hguard]
      | succ fuel' =>
          by_cases hguard : (i : Int) ≤ (s.length : Int) - (p.length : Int)
          · show bm_go s p (fuel + 1) i = bm_go s p (fuel' + 1) i
            simp only [bm_go, hguard, if_pos]
            cases h : bm_mismatch s p i with
            | none =>
                show i :: bm_go s p fuel (i + 1) = i :: bm_go s p fuel' (i + 1)
                rw [ih fuel' (i + 1) (by omega) (by omega)]
            | some j =>
                show bm_go s p fuel (i + max 1 (bad_char_shift p (s.getD (i + j) 'A'))) =
                  bm_go s p fuel' (i + max 1 (bad_char_shift p (s.getD (i + j) 'A')))
                rw [ih fuel' (i + max 1 (bad_char_shift p (s.getD (i + j) 'A')))
                  (by omega) (by omega)]
          · rw [bm_go_guard_false s p hguard, bm_go_guard_false s p hguard]

/-- If the right-to-left scan ran below `j`, all pattern positions `t < j`
matched the text. -/
theorem bm_mismatch_go_none (s p : List Char) (i : Nat) :
    ∀ j, bm_mismatch_go s p i j = none →
      ∀ t, t < j → p.getD t 'A' = s.getD (i + t) 'A' := by
  intro j
  induction j with
  | zero => intro _ t ht; omega
  | succ j ih =>
      intro h t ht
      rw [show bm_mismatch_go s p i (j + 1) =
          (if p.getD j 'A' = s.getD (i + j) 'A' then bm_mismatch_go s p i j
           else some j) from rfl] at h
      by_cases hc : p.getD j 'A' = s.getD (i + j) 'A'
      · rw [if_pos hc] at h
        rcases Nat.lt_succ_iff_lt_or_eq.mp ht with h' | h'
        · exact ih h t h'
        · subst h'; exact hc
      · rw [if_neg hc] at h
        exact absurd h (by simp)

/-- A full right-to-left match inside the window is a slice equality. -/
theorem bm_mismatch_none_slice {s p : List Char} {i : Nat}
    (h : bm_mismatch s p i = none) (hb : i + p.length ≤ s.length) :
    pySlice s i p.length = p := by
  have hlen : (pySlice s i p.length).length = p.length := by
    simp [pySlice]; omega
  apply List.ext_getElem hlen
  intro t h1 h2
  have ht : t < p.length := h2
  have hchar := bm_mismatch_go_none s p i p.length h t ht
  have hst : i + t < s.length := by omega
  have hgp : p.getD t 'A' = p[t] := List.getD_eq_getElem p 'A' ht
  have hgs : s.getD (i + t) 'A' = s[i + t] := List.getD_eq_getElem s 'A' hst
  have hsl : (pySlice s i p.length)[t] = s[i + t] := by
    show ((s.drop i).take p.length)[t] = s[i + t]
    rw [List.getElem_take, List.getElem_drop]
  rw [hsl, ← hgs, ← hchar, hgp]

/-- Membership in `naive_match` is a windowed slice equality. -/
theorem mem_naive_match {s p : List Char} {i : Nat} :
    i ∈ naive_match s p ↔ i + p.length ≤ s.length ∧ pySlice s i p.length = p := by
  simp only [naive_match, pyNatRange, List.mem_filter, List.mem_range,
    decide_eq_true_eq]
  constructor
  · rintro ⟨hi, hs⟩
    exact ⟨by omega, hs⟩
  · rintro ⟨hi, hs⟩
    exact ⟨by omega, hs⟩

/-- C1 (amended): every position reported by `boyer_moore_match` is a true
occurrence, i.e. it also appears in `naive_match`.  (The converse — the
equality claimed by the spec — fails; see `boyer_moore_misses_match`.) -/
theorem boyer_moore_sound (s p : List Char) (hp : p ≠ []) :
    ∀ pos ∈ (boyer_moore_match s p).1, pos ∈ naive_match s p := by
  suffices h : ∀ fuel i, ∀ pos ∈ bm_go s p fuel i, pos ∈ naive_match s p by
    intro pos hpos
    exact h (s.length + 2) 0 pos hpos
  intro fuel
  induction fuel with
  | zero => intro i pos hpos; simp [bm_go] at hpos
  | succ fuel ih =>
      intro i pos hpos
      by_cases hguard : (i : Int) ≤ (s.length : Int) - (p.length : Int)
      · simp only [bm_go, hguard, if_pos] at hpos
        cases h : bm_mismatch s p i with
        | none =>
            rw [h] at hpos
            rcases List.mem_cons.mp hpos with h' | h'
            · subst h'
              have hb : pos + p.length ≤ s.length := by
                have := hguard; omega
              exact mem_naive_match.mpr ⟨hb, bm_mismatch_none_slice h hb⟩
            · exact ih _ pos h'
        | some j =>
            rw [h] at hpos
            exact ih _ pos hpos
      · simp [bm_go, hguard] at hpos

/-- C1 counterexample: on `seq = "AABB"`, `pattern = "ABB"` (non-empty), the
bad-character shift `len(pattern)` − 1 − lastIndex('A') = 2 jumps over the
genuine occurrence at position 1, so Boyer-Moore returns `[]` while the naive
scan returns `[1]`. -/
theorem boyer_moore_misses_match :
    "ABB".toList ≠ [] ∧
      (boyer_moore_match "AABB".toList "ABB".toList).1 ≠
        naive_match "AABB".toList "ABB".toList := by
  constructor
  · decide
  · decide

/-- Witness for `boyer_moore_sound` at `seq = pattern = "AB"`. -/
theorem boyer_moore_sound_witness :
    ("AB".toList ≠ [] ∧ 0 ∈ (boyer_moore_match "AB".toList "AB".toList).1) ∧
      0 ∈ naive_match "AB".toList "AB".toList :=
  ⟨⟨by decide, by decide⟩, boyer_moore_sound _ _ (by decide) 0 (by decide)⟩

/-- C9: with the empty pattern, both matchers report every offset
`0, …, len(seq)`: the naive window condition is trivially true on
`range(len(seq)+1)`, and Boyer-Moore's right-to-left scan succeeds immediately
at every `i ≤ len(seq)`, advancing by 1. -/
theorem empty_pattern_matches_everywhere (s : List Char) :
    naive_match s [] = List.range (s.length + 1) ∧
      (boyer_moore_match s []).1 = List.range (s.length + 1) := by
  constructor
  · have hbound : (((s.length : Int) - (([] : List Char).length : Int) + 1)).toNat
        = s.length + 1 := by simp
    simp only [naive_match, pyNatRange, hbound]
    apply List.filter_eq_self.mpr
    intro a _
    simp [pySlice]
  · have key : ∀ fuel i, s.length + 1 ≤ fuel + i → i ≤ s.length + 1 →
        bm_go s [] fuel i = List.range' i (s.length + 1 - i) := by
      intro fuel
      induction fuel with
      | zero =>
          intro i h1 h2
          have hii : i = s.length + 1 := by omega
          subst hii
          show ([] : List Nat) = List.range' (s.length + 1) (s.length + 1 - (s.length + 1))
          rw [Nat.sub_self]
          rfl
      | succ fuel ih =>
          intro i h1 h2
          by_cases hi : i ≤ s.length
          · have hguard : (i : Int) ≤ (s.length : Int) - (([] : List Char).length : Int) := by
              simp only [List.length_nil]
              push_cast
              omega
            have hmm : bm_mismatch s [] i = none := rfl
            simp only [bm_go, hguard, if_pos, hmm]
            rw [ih (i + 1) (by omega) (by omega)]
            have harith : s.length + 1 - (i + 1) = s.length - i := by omega
            have hs : s.length + 1 - i = (s.length - i) + 1 := by omega
            rw [harith, hs, List.range'_succ]
          · have hguard : ¬ ((i : Int) ≤ (s.length : Int) - (([] : List Char).length : Int)) := by
              simp only [List.length_nil]
              push_cast
              omega
            rw [bm_go_guard_false s [] hguard]
            have hz : s.length + 1 - i = 0 := by omega
            rw [hz]
            rfl
    show bm_go s [] (s.length + 2) 0 = List.range (s.length + 1)
    rw [key (s.length + 2) 0 (by omega) (by omega), Nat.sub_zero,
      List.range_eq_range']

/-! ## src/algorithms/index_search.py -/

/-- Python tuple order on `(kmer, position)` pairs, used by `index.sort()`. -/
def pairLe (e f : List Char × Nat) : Prop :=
  e.1 < f.1 ∨ (e.1 = f.1 ∧ e.2 ≤ f.2)

instance : DecidableRel pairLe := fun e f =>
  inferInstanceAs (Decidable (e.1 < f.1 ∨ (e.1 = f.1 ∧ e.2 ≤ f.2)))

instance : IsTrans (List Char × Nat) pairLe where
  trans e f g hef hfg := by
    rcases hef with h1 | ⟨h1, h1'⟩ <;> rcases hfg with h2 | ⟨h2, h2'⟩
    · exact Or.inl (lt_trans h1 h2)
    · exact Or.inl (h2 ▸ h1)
    · exact Or.inl (h1 ▸ h2)
    · exact Or.inr ⟨h1.trans h2, le_trans h1' h2'⟩

instance : IsTotal (List Char × Nat) pairLe where
  total e f := by
    rcases lt_trichotomy e.1 f.1 with h | h | h
    · exact Or.inl (Or.inl h)
    · rcases Nat.le_total e.2 f.2 with h' | h'
      · exact Or.inl (Or.inr ⟨h, h'⟩)
      · exact Or.inr (Or.inr ⟨h.symm, h'⟩)
    · exact Or.inr (Or.inl h)

/-- `build_index(seq, k)`: collect `(seq[i:i+k], i)` for
`i in range(len(seq) - k + 1)` and sort the pair list (Python tuple order). -/
def build_index (s : List Char) (k : Nat) : List (List Char × Nat) :=
  ((pyNatRange ((s.length : Int) - (k : Int) + 1)).map
    (fun i => (pySlice s i k, i))).insertionSort pairLe

/-- `query_index(index, seq, pattern)`.  The stdlib calls
`bisect.bisect_left(keys, query_kmer)` and `bisect.bisect_right(keys,
query_kmer)` are modelled by their specification on the sorted `keys` list:
the number of keys `< query_kmer`, resp. `≤ query_kmer`; `index[st:en]` is
`(index.drop st).take (en - st)`, and `sorted` is a stable sort. -/
def query_index (index : List (List Char × Nat)) (s p : List Char) : List Nat :=
  match index with
  | [] => []
  | e :: _ =>
    let k := e.1.length
    let keys := index.map (fun ep => ep.1)
    let q := p.take k
    let st := (keys.filter (fun x => decide (x < q))).length
    let en := (keys.filter (fun x => decide (x ≤ q))).length
    let candidates := ((index.drop st).take (en - st)).map (fun ep => ep.2)
    let found := candidates.filter (fun pos => decide (pySlice s pos p.length = p))
    found.insertionSort (· ≤ ·)

/-- C8 (amended): `build_index` performs no validation of `k`: for
`k > len(seq)` the construction `range` is empty and the function returns the
empty index instead of signaling any error. -/
theorem build_index_no_validation (s : List Char) (k : Nat) (h : s.length < k) :
    build_index s k = [] := by
  have hz : ((s.length : Int) - (k : Int) + 1).toNat = 0 := by omega
  simp [build_index, pyNatRange, hz, List.insertionSort]

/-- C8 counterexample: `build_index("ACGT", 5)` returns the empty index (a
sentinel value) — its return type has no error channel at all, so no typed
`InvalidInput` error is signaled. -/
theorem build_index_no_validation_counterexample :
    build_index "ACGT".toList 5 = [] := by decide

/-- Witness for `build_index_no_validation` at `seq = "ACGT"`, `k = 5`. -/
theorem build_index_no_validation_witness :
    "ACGT".toList.length < 5 ∧ build_index "ACGT".toList 5 = [] :=
  ⟨by decide, build_index_no_validation _ _ (by decide)⟩

theorem pairLe_fst {a b : List Char × Nat} (h : pairLe a b) : a.1 ≤ b.1 := by
  rcases h with h | ⟨h, _⟩
  · exact le_of_lt h
  · exact le_of_eq h

/-- Index membership: the sorted index holds exactly the pairs
`(seq[i:i+k], i)` for `i` in the construction range. -/
theorem mem_build_index {s : List Char} {k : Nat} {q : List Char} {pos : Nat} :
    (q, pos) ∈ build_index s k ↔
      pos < ((s.length : Int) - (k : Int) + 1).toNat ∧ pySlice s pos k = q := by
  rw [build_index, List.mem_insertionSort, List.mem_map]
  constructor
  · rintro ⟨i, hi, heq⟩
    rw [Prod.mk.injEq] at heq
    obtain ⟨h1, h2⟩ := heq
    subst h2
    exact ⟨List.mem_range.mp hi, h1⟩
  · rintro ⟨h1, h2⟩
    exact ⟨pos, List.mem_range.mpr h1, by rw [h2]⟩

/-- Every k-mer stored by `build_index` has length exactly `k` when
`k ≤ len(seq)`. -/
theorem build_index_kmer_length {s : List Char} {k : Nat} (hks : k ≤ s.length) :
    ∀ e ∈ build_index s k, e.1.length = k := by
  intro e he
  obtain ⟨q, pos⟩ := e
  obtain ⟨h1, h2⟩ := mem_build_index.mp he
  rw [← h2]
  simp only [pySlice, List.length_take, List.length_drop]
  omega

theorem build_index_sorted (s : List Char) (k : Nat) :
    (build_index s k).Pairwise pairLe :=
  List.sorted_insertionSort pairLe _

/-- The positions stored in the index are exactly the construction range (as a
permutation), in particular without duplicates. -/
theorem build_index_snd_nodup (s : List Char) (k : Nat) :
    ((build_index s k).map (fun e => e.2)).Nodup := by
  have hperm : List.Perm ((build_index s k).map (fun e => e.2))
      (((pyNatRange ((s.length : Int) - (k : Int) + 1)).map
        (fun i => (pySlice s i k, i))).map (fun e => e.2)) :=
    (List.perm_insertionSort pairLe _).map _
  have hmm : ((pyNatRange ((s.length : Int) - (k : Int) + 1)).map
      (fun i => (pySlice s i k, i))).map (fun e => e.2) =
      pyNatRange ((s.length : Int) - (k : Int) + 1) := by
    rw [List.map_map]
    exact List.map_id _
  rw [hmm] at hperm
  exact hperm.symm.nodup (List.nodup_range _)

/-- Extracting `index[st:en]` with `st = #{keys < q}` and `en = #{keys ≤ q}`
from a list sorted by key yields exactly the entries with key `= q`. -/
theorem run_extract (q : List Char) :
    ∀ l : List (List Char × Nat), l.Pairwise pairLe →
      (l.drop ((l.filter (fun e => decide (e.1 < q))).length)).take
        ((l.filter (fun e => decide (e.1 ≤ q))).length -
          (l.filter (fun e => decide (e.1 < q))).length)
      = l.filter (fun e => decide (e.1 = q)) := by
  intro l
  induction l with
  | nil => intro _; rfl
  | cons a t ih =>
      intro hp
      rw [List.pairwise_cons] at hp
      obtain ⟨ha, ht⟩ := hp
      rcases lt_trichotomy a.1 q with hc | hc | hc
      · rw [List.filter_cons_of_pos (by simpa using le_of_lt hc),
          List.filter_cons_of_pos (by simpa using hc),
          List.filter_cons_of_neg (by simpa using ne_of_lt hc),
          List.length_cons, List.length_cons]
        have harith : ∀ x y : Nat,
            x + 1 - (y + 1) = x - y := by omega
        rw [harith, List.drop_succ_cons]
        exact ih ht
      · have hlt0 : (t.filter (fun e => decide (e.1 < q))).length = 0 := by
          rw [List.length_eq_zero, List.filter_eq_nil_iff]
          intro e he
          have hle : q ≤ e.1 := hc ▸ pairLe_fst (ha e he)
          simp [not_lt.mpr hle]
        rw [List.filter_cons_of_pos (by simpa using le_of_eq hc),
          List.filter_cons_of_neg (by simpa using not_lt.mpr (le_of_eq hc.symm)),
          List.filter_cons_of_pos (by simpa using hc),
          List.length_cons, hlt0]
        rw [List.drop_zero, Nat.sub_zero, List.take_succ_cons]
        have hih := ih ht
        rw [hlt0, List.drop_zero, Nat.sub_zero] at hih
        rw [hih]
      · have hallgt : ∀ e ∈ (a :: t), q < e.1 := by
          intro e he
          rcases List.mem_cons.mp he with h | h
          · exact h ▸ hc
          · exact lt_of_lt_of_le hc (pairLe_fst (ha e h))
        have hlt0 : ((a :: t).filter (fun e => decide (e.1 < q))).length = 0 := by
          rw [List.length_eq_zero, List.filter_eq_nil_iff]
          intro e he
          simp [not_lt.mpr (le_of_lt (hallgt e he))]
        have hle0 : ((a :: t).filter (fun e => decide (e.1 ≤ q))).length = 0 := by
          rw [List.length_eq_zero, List.filter_eq_nil_iff]
          intro e he
          simp [not_le.mpr (hallgt e he)]
        have heq0 : (a :: t).filter (fun e => decide (e.1 = q)) = [] := by
          rw [List.filter_eq_nil_iff]
          intro e he
          simp [ne_of_gt (hallgt e he)]
        rw [hlt0, hle0, heq0, Nat.sub_zero, List.take_zero]

theorem naive_match_sorted (s p : List Char) :
    List.Sorted (· ≤ ·) (naive_match s p) :=
  ((List.pairwise_lt_range _).sublist (List.filter_sublist _)).imp le_of_lt

theorem naive_match_nodup (s p : List Char) : (naive_match s p).Nodup :=
  (List.filter_sublist _).nodup (List.nodup_range _)

/-- One-step unfolding of `query_index` on a non-empty index. -/
theorem query_index_cons (e : List Char × Nat) (rest : List (List Char × Nat))
    (s p : List Char) :
    query_index (e :: rest) s p =
      (((((e :: rest).drop
          ((((e :: rest).map (fun ep => ep.1)).filter
            (fun x => decide (x < p.take e.1.length))).length)).take
          ((((e :: rest).map (fun ep => ep.1)).filter
            (fun x => decide (x ≤ p.take e.1.length))).length -
            (((e :: rest).map (fun ep => ep.1)).filter
              (fun x => decide (x < p.take e.1.length))).length)).map
          (fun ep => ep.2)).filter
        (fun pos => decide (pySlice s pos p.length = p))).insertionSort (· ≤ ·) :=
  rfl

/-- C2: querying the k-mer index returns exactly the naive scan, for any
pattern at least `k` long.  (When `k > len(seq)` the index is empty and both
sides are empty; otherwise binary search selects the run of entries whose
k-mer equals `pattern[:k]` and full verification keeps exactly the true
occurrences, which the final sort presents in ascending order.) -/
theorem query_index_eq_naive_match (s p : List Char) (k : Nat)
    (hk : k ≤ p.length) :
    query_index (build_index s k) s p = naive_match s p := by
  by_cases hks : k ≤ s.length
  · -- the index is non-empty and every stored k-mer has length k
    have hlen : (build_index s k).length
        = ((s.length : Int) - (k : Int) + 1).toNat := by
      rw [build_index, List.length_insertionSort, List.length_map]
      simp [pyNatRange]
    have hpos : 0 < (build_index s k).length := by
      rw [hlen]; omega
    obtain ⟨e, rest, hI⟩ : ∃ e rest, build_index s k = e :: rest := by
      cases hcase : build_index s k with
      | nil => rw [hcase] at hpos; simp at hpos
      | cons e rest => exact ⟨e, rest, rfl⟩
    have hsorted : (e :: rest).Pairwise pairLe := hI ▸ build_index_sorted s k
    have hnodup : ((e :: rest).map (fun ep => ep.2)).Nodup :=
      hI ▸ build_index_snd_nodup s k
    have hmem : ∀ (q : List Char) (pos : Nat),
        (q, pos) ∈ (e :: rest) ↔
          pos < ((s.length : Int) - (k : Int) + 1).toNat ∧ pySlice s pos k = q := by
      intro q pos
      rw [← hI]
      exact mem_build_index
    have hke : e.1.length = k :=
      build_index_kmer_length hks e (hI ▸ List.mem_cons_self e rest)
    rw [hI, query_index_cons, hke]
    set q := p.take k with hq
    have hbridge_lt : (((e :: rest).map (fun ep => ep.1)).filter
        (fun x => decide (x < q))).length
        = ((e :: rest).filter (fun ep => decide (ep.1 < q))).length := by
      rw [List.filter_map, List.length_map]
      rfl
    have hbridge_le : (((e :: rest).map (fun ep => ep.1)).filter
        (fun x => decide (x ≤ q))).length
        = ((e :: rest).filter (fun ep => decide (ep.1 ≤ q))).length := by
      rw [List.filter_map, List.length_map]
      rfl
    rw [hbridge_lt, hbridge_le, run_extract q (e :: rest) hsorted]
    -- the candidate positions with full verification
    have hcand_nodup :
        (((e :: rest).filter (fun ep => decide (ep.1 = q))).map
          (fun ep => ep.2)).Nodup :=
      ((List.filter_sublist (e :: rest)).map (fun ep => ep.2)).nodup hnodup
    have hfound_nodup :
        ((((e :: rest).filter (fun ep => decide (ep.1 = q))).map
          (fun ep => ep.2)).filter
            (fun pos => decide (pySlice s pos p.length = p))).Nodup :=
      (List.filter_sublist _).nodup hcand_nodup
    apply List.eq_of_perm_of_sorted _
      (List.sorted_insertionSort _ _) (naive_match_sorted s p)
    refine (List.perm_insertionSort _ _).trans ?_
    rw [List.perm_ext_iff_of_nodup hfound_nodup (naive_match_nodup s p)]
    intro pos
    rw [List.mem_filter, mem_naive_match, decide_eq_true_eq]
    constructor
    · rintro ⟨hcand, hver⟩
      obtain ⟨ep, hep, hsnd⟩ := List.mem_map.mp hcand
      obtain ⟨hepI, hepq⟩ := List.mem_filter.mp hep
      rw [decide_eq_true_eq] at hepq
      have hqpos : (q, pos) ∈ (e :: rest) := by
        have : ep = (q, pos) := by
          obtain ⟨a, b⟩ := ep
          simp only at hepq hsnd
          rw [hepq, hsnd]
        rw [← this]
        exact hepI
      have hplen : pos + p.length ≤ s.length := by
        have hposrange := ((hmem q pos).mp hqpos).1
        have hl : (pySlice s pos p.length).length = p.length := by rw [hver]
        simp only [pySlice, List.length_take, List.length_drop] at hl
        omega
      exact ⟨hplen, hver⟩
    · rintro ⟨hplen, hver⟩
      have hrange : pos < ((s.length : Int) - (k : Int) + 1).toNat := by omega
      have hsliceq : pySlice s pos k = q := by
        rw [hq, ← hver]
        show (s.drop pos).take k = ((s.drop pos).take p.length).take k
        rw [List.take_take, inf_eq_left.mpr hk]
      refine ⟨List.mem_map.mpr ⟨(q, pos), List.mem_filter.mpr
        ⟨(hmem q pos).mpr ⟨hrange, hsliceq⟩, by simp⟩, rfl⟩, hver⟩
  · -- k > len(seq): the index is empty and so is the naive scan
    have hsl : s.length < k := not_le.mp hks
    rw [build_index_no_validation s k hsl]
    have hzero : ((s.length : Int) - (p.length : Int) + 1).toNat = 0 := by omega
    have hnv : naive_match s p = [] := by
      simp only [naive_match, pyNatRange, hzero]
      rfl
    rw [hnv]
    rfl

/-- Witness for `query_index_eq_naive_match` at `seq = "ACGT"`, `k = 2`,
`pattern = "CG"`. -/
theorem query_index_eq_naive_match_witness :
    (2 ≤ "CG".toList.length) ∧
      query_index (build_index "ACGT".toList 2) "ACGT".toList "CG".toList =
        naive_match "ACGT".toList "CG".toList :=
  ⟨by decide, query_index_eq_naive_match "ACGT".toList "CG".toList 2 (by decide)⟩

/-! ## src/algorithms/assembly.py -/

/-- Python `a.find(sub, start)`, modelled by the stdlib specification: the
least `i ≥ start` such that `a[i:i+len(sub)] == sub` (hence
`i + len(sub) ≤ len(a)`, and `i ≤ len(a)` even for the empty `sub`), or
`none` for Python's `-1`. -/
def pyFind (a sub : List Char) (start : Nat) : Option Nat :=
  ((List.range (a.length + 1)).filter
    (fun i => decide (start ≤ i ∧ pySlice a i sub.length = sub))).head?

/-- Python `b.startswith(pre)`. -/
def pyStartswith (b pre : List Char) : Bool := pre.isPrefixOf b

/-- The `while True` loop of `find_overlap`.  Each iteration either returns or
restarts the `find` strictly beyond the previous hit, and a hit never lies
beyond `len(a)`, so the loop runs at most `len(a) + 1` times; fuel
`len(a) + 2` therefore makes the fuel-out branch unreachable. -/
def find_overlap_go (a b : List Char) (minL : Nat) : Nat → Nat → Nat
  | 0, _ => 0
  | fuel + 1, start =>
    match pyFind a (b.take minL) start with
    | none => 0
    | some st =>
      if pyStartswith b (a.drop st) then a.length - st
      else find_overlap_go a b minL fuel (st + 1)

/-- `find_overlap(a, b, min_length)` from src/algorithms/assembly.py. -/
def find_overlap (a b : List Char) (minL : Nat) : Nat :=
  find_overlap_go a b minL (a.length + 2) 0

/-- `itertools.permutations(reads, 2)`: ordered pairs of entries at distinct
indices, in lexicographic index order. -/
def permutations2 (l : List (List Char)) : List (List Char × List Char) :=
  l.enum.flatMap (fun pr =>
    l.enum.filterMap (fun qr => if pr.1 ≠ qr.1 then some (pr.2, qr.2) else none))

/-- Python dict assignment `d[key] = v` on an insertion-ordered dictionary:
overwrite in place if the key is present, else append. -/
def dict_insert (d : List ((List Char × List Char) × Nat))
    (key : List Char × List Char) (v : Nat) :
    List ((List Char × List Char) × Nat) :=
  if d.any (fun e => decide (e.1 = key)) then
    d.map (fun e => if e.1 = key then (key, v) else e)
  else d ++ [(key, v)]

/-- `find_all_overlaps(reads, k)`: a dictionary keyed by the *sequence pair*
`(a, b)` (not by read indices), holding the positive overlap lengths. -/
def find_all_overlaps (reads : List (List Char)) (k : Nat) :
    List ((List Char × List Char) × Nat) :=
  (permutations2 reads).foldl
    (fun d ab =>
      let olen := find_overlap ab.1 ab.2 k
      if olen > 0 then dict_insert d (ab.1, ab.2) olen else d) []

/-- `L` is a valid overlap length: the last `L` characters of `a` equal the
first `L` characters of `b`, and `L` is at least the requested minimum. -/
def ov_valid (a b : List Char) (minL L : Nat) : Prop :=
  minL ≤ L ∧ L ≤ a.length ∧ a.drop (a.length - L) = b.take L

/-- A candidate offset `st` at which the loop of `find_overlap` succeeds:
the `min_length`-anchor matches at `st` and `a[st:]` is a prefix of `b`. -/
def pos_ok (a b : List Char) (minL st : Nat) : Prop :=
  st ≤ a.length ∧ pySlice a st ((b.take minL).length) = b.take minL ∧
    pyStartswith b (a.drop st) = true

theorem pyFind_none {a sub : List Char} {start : Nat}
    (h : pyFind a sub start = none) :
    ∀ i, start ≤ i → i ≤ a.length → pySlice a i sub.length ≠ sub := by
  intro i h1 h2 h3
  rw [pyFind, List.head?_eq_none_iff, List.filter_eq_nil_iff] at h
  exact h i (List.mem_range.mpr (by omega)) (by simp [h1, h3])

theorem pyFind_some {a sub : List Char} {start st : Nat}
    (h : pyFind a sub start = some st) :
    start ≤ st ∧ st ≤ a.length ∧ pySlice a st sub.length = sub ∧
      ∀ i, start ≤ i → i < st → pySlice a i sub.length ≠ sub := by
  rw [pyFind] at h
  cases hl : (List.range (a.length + 1)).filter
      (fun i => decide (start ≤ i ∧ pySlice a i sub.length = sub)) with
  | nil => rw [hl] at h; simp at h
  | cons x xs =>
      rw [hl] at h
      simp only [List.head?_cons, Option.some.injEq] at h
      rw [h] at hl
      have hx : st ∈ (List.range (a.length + 1)).filter
          (fun i => decide (start ≤ i ∧ pySlice a i sub.length = sub)) := by
        rw [hl]; exact List.mem_cons_self _ _
      obtain ⟨hxr, hxc⟩ := List.mem_filter.mp hx
      rw [decide_eq_true_eq] at hxc
      obtain ⟨hst1, hst2⟩ := hxc
      refine ⟨hst1, by
        have := List.mem_range.mp hxr; omega, hst2, ?_⟩
      intro i h1 h2 h3
      have hi : i ∈ (List.range (a.length + 1)).filter
          (fun i => decide (start ≤ i ∧ pySlice a i sub.length = sub)) := by
        refine List.mem_filter.mpr ⟨List.mem_range.mpr ?_, by simp [h1, h3]⟩
        have := List.mem_range.mp hxr
        omega
      have hsorted : (st :: xs).Pairwise (· < ·) := by
        rw [← hl]
        exact (List.pairwise_lt_range _).sublist (List.filter_sublist _)
      rw [hl] at hi
      rcases List.mem_cons.mp hi with h' | h'
      · omega
      · have := (List.pairwise_cons.mp hsorted).1 i h'
        omega

/-- Spec of the `find_overlap` loop from a given `start`: it returns 0 when no
candidate offset `≥ start` works, and otherwise the overlap length of the
*smallest* working offset (which corresponds to the largest overlap). -/
theorem find_overlap_go_spec (a b : List Char) (minL : Nat) :
    ∀ fuel start, a.length + 1 ≤ fuel + start →
      (find_overlap_go a b minL fuel start = 0 ∧
        ∀ st, start ≤ st → ¬ pos_ok a b minL st) ∨
      (∃ st, start ≤ st ∧ pos_ok a b minL st ∧
        find_overlap_go a b minL fuel start = a.length - st ∧
        ∀ st', start ≤ st' → pos_ok a b minL st' → st ≤ st') := by
  intro fuel
  induction fuel with
  | zero =>
      intro start hfuel
      left
      refine ⟨rfl, ?_⟩
      intro st hst hok
      have := hok.1
      omega
  | succ fuel ih =>
      intro start hfuel
      cases hfind : pyFind a (b.take minL) start with
      | none =>
          left
          constructor
          · show (match pyFind a (b.take minL) start with
              | none => 0
              | some st =>
                if pyStartswith b (a.drop st) then a.length - st
                else find_overlap_go a b minL fuel (st + 1)) = 0
            rw [hfind]
          · intro st hst hok
            exact pyFind_none hfind st hst hok.1 hok.2.1
      | some st =>
          obtain ⟨hst1, hst2, hst3, hstmin⟩ := pyFind_some hfind
          by_cases hpre : pyStartswith b (a.drop st) = true
          · right
            refine ⟨st, hst1, ⟨hst2, hst3, hpre⟩, ?_, ?_⟩
            · show (match pyFind a (b.take minL) start with
                | none => 0
                | some st =>
                  if pyStartswith b (a.drop st) then a.length - st
                  else find_overlap_go a b minL fuel (st + 1)) = a.length - st
              rw [hfind]
              show (if pyStartswith b (a.drop st) = true then a.length - st
                else find_overlap_go a b minL fuel (st + 1)) = a.length - st
              rw [if_pos hpre]
            · intro st' h1 hok
              by_contra hlt
              exact hstmin st' h1 (by omega) hok.2.1
          · have hval : find_overlap_go a b minL (fuel + 1) start
                = find_overlap_go a b minL fuel (st + 1) := by
              show (match pyFind a (b.take minL) start with
                | none => 0
                | some st =>
                  if pyStartswith b (a.drop st) then a.length - st
                  else find_overlap_go a b minL fuel (st + 1)) = _
              rw [hfind]
              show (if pyStartswith b (a.drop st) = true then a.length - st
                else find_overlap_go a b minL fuel (st + 1)) = _
              rw [if_neg hpre]
            have hexcl : ∀ st', start ≤ st' → st' ≤ st → ¬ pos_ok a b minL st' := by
              intro st' h1 h2 hok
              rcases Nat.lt_or_ge st' st with h' | h'
              · exact hstmin st' h1 h' hok.2.1
              · have : st' = st := by omega
                subst this
                exact hpre hok.2.2
            rcases ih (st + 1) (by omega) with ⟨hv, hnone⟩ | ⟨st2, h1, h2, h3, h4⟩
            · left
              refine ⟨by rw [hval]; exact hv, ?_⟩
              intro st' h1 hok
              rcases Nat.lt_or_ge st st' with h' | h'
              · exact hnone st' (by omega) hok
              · exact hexcl st' h1 h' hok
            · right
              refine ⟨st2, by omega, h2, by rw [hval]; exact h3, ?_⟩
              intro st' h5 hok
              rcases Nat.lt_or_ge st st' with h' | h'
              · exact h4 st' (by omega) hok
              · exact absurd hok (hexcl st' h5 h')

/-- Candidate offsets and valid overlap lengths correspond via
`L = len(a) - st`, provided `1 ≤ min_length ≤ len(b)`. -/
theorem pos_ok_to_ov_valid {a b : List Char} {minL st : Nat}
    (h2 : minL ≤ b.length) (hok : pos_ok a b minL st) :
    ov_valid a b minL (a.length - st) := by
  obtain ⟨hle, hanchor, hpre⟩ := hok
  have htl : (b.take minL).length = minL := by
    rw [List.length_take]; omega
  have hdrop : a.drop st = b.take (a.length - st) := by
    have hp : (a.drop st) <+: b := List.isPrefixOf_iff_prefix.mp hpre
    have := List.prefix_iff_eq_take.mp hp
    rw [this, List.length_drop]
  have hmin : minL ≤ a.length - st := by
    have hlenanchor : (pySlice a st ((b.take minL).length)).length
        = (b.take minL).length := by rw [hanchor]
    simp only [pySlice, List.length_take, List.length_drop, htl] at hlenanchor
    omega
  exact ⟨hmin, by omega, by rw [Nat.sub_sub_self hle]; exact hdrop⟩

theorem ov_valid_to_pos_ok {a b : List Char} {minL L : Nat}
    (h2 : minL ≤ b.length) (hv : ov_valid a b minL L) :
    pos_ok a b minL (a.length - L) := by
  obtain ⟨hminL, hLa, heq⟩ := hv
  have htl : (b.take minL).length = minL := by
    rw [List.length_take]; omega
  have hdrop : a.drop (a.length - L) = b.take L := heq
  refine ⟨by omega, ?_, ?_⟩
  · rw [htl]
    show (a.drop (a.length - L)).take minL = b.take minL
    rw [hdrop, List.take_take, inf_eq_left.mpr hminL]
  · rw [pyStartswith, List.isPrefixOf_iff_prefix, hdrop]
    exact List.take_prefix _ _

/-- C3 (amended): provided `1 ≤ min_length ≤ len(b)`, `find_overlap(a, b,
min_length)` returns the largest `L ≥ min_length` such that the last `L`
characters of `a` equal the first `L` characters of `b`, and `0` when no such
`L` exists.  (Without `min_length ≤ len(b)` this fails; see
`find_overlap_below_min_length`.) -/
theorem find_overlap_spec (a b : List Char) (minL : Nat)
    (h1 : 1 ≤ minL) (h2 : minL ≤ b.length) :
    (find_overlap a b minL = 0 ∧ ∀ L, ¬ ov_valid a b minL L) ∨
      (ov_valid a b minL (find_overlap a b minL) ∧
        ∀ L, ov_valid a b minL L → L ≤ find_overlap a b minL) := by
  rcases find_overlap_go_spec a b minL (a.length + 2) 0 (by omega) with
    ⟨hv, hnone⟩ | ⟨st, _, hok, hval, hminim⟩
  · left
    refine ⟨hv, ?_⟩
    intro L hL
    exact hnone (a.length - L) (Nat.zero_le _) (ov_valid_to_pos_ok h2 hL)
  · right
    rw [show find_overlap a b minL = find_overlap_go a b minL (a.length + 2) 0
      from rfl, hval]
    refine ⟨pos_ok_to_ov_valid h2 hok, ?_⟩
    intro L hL
    have hok' := ov_valid_to_pos_ok h2 hL
    have := hminim (a.length - L) (Nat.zero_le _) hok'
    have hLa := hL.2.1
    omega

/-- C3 counterexample: with `min_length = 5 > len(b)` the anchor `b[:5]`
degenerates to the whole of `b`, and `find_overlap("AB", "AB", 5)` returns 2 —
a positive value strictly below `min_length`, where the claim requires 0. -/
theorem find_overlap_below_min_length :
    find_overlap "AB".toList "AB".toList 5 = 2 ∧ 0 < 2 ∧ 2 < 5 := by
  refine ⟨by decide, by omega, by omega⟩

/-- Witness for `find_overlap_spec` at the spec's concrete scenario
`find_overlap("ATGCGATCG", "TCGATCGAT", 3)`. -/
theorem find_overlap_spec_witness :
    (find_overlap "ATGCGATCG".toList "TCGATCGAT".toList 3 = 0 ∧
        ∀ L, ¬ ov_valid "ATGCGATCG".toList "TCGATCGAT".toList 3 L) ∨
      (ov_valid "ATGCGATCG".toList "TCGATCGAT".toList 3
          (find_overlap "ATGCGATCG".toList "TCGATCGAT".toList 3) ∧
        ∀ L, ov_valid "ATGCGATCG".toList "TCGATCGAT".toList 3 L →
          L ≤ find_overlap "ATGCGATCG".toList "TCGATCGAT".toList 3) :=
  find_overlap_spec _ _ 3 (by decide) (by decide)

/-- C6: `find_all_overlaps` keys its records by the *sequence pair*, so the
two ordered index pairs of the duplicate reads `["AAA", "AAA"]` collapse to a
single content-keyed record `(("AAA","AAA"), 3)` — not the two index-keyed
records `(0,1,3)` and `(1,0,3)` the claim requires. -/
theorem find_all_overlaps_content_keyed :
    find_all_overlaps ["AAA".toList, "AAA".toList] 1 =
      [(("AAA".toList, "AAA".toList), 3)] := by decide

/-! ## src/algorithms/edit_distance.py -/

/-- `delta = 1 if x[i-1] != y[j-1] else 0`. -/
def delta (a b : Char) : Nat := if a ≠ b then 1 else 0

/-- The DP matrix entry `D[i][j]` of `edit_distance_DP` /
`edit_distance_with_matrix`, tabulated by its defining equations
(`D[i][0] = i`, `D[0][j] = j`, and the three-way `min` recurrence in the
source's argument order).  The first argument is fuel dominating `i + j`, so
the recursion is structural; `edMatAux_stable` shows the fuel is irrelevant
once `i + j ≤ fuel`, and `edMat` always supplies enough. -/
def edMatAux (x y : List Char) : Nat → Nat → Nat → Nat
  | _, i, 0 => i
  | _, 0, j => j
  | 0, _ + 1, _ + 1 => 0
  | f + 1, i + 1, j + 1 =>
    min (edMatAux x y f i j + delta (x.getD i 'A') (y.getD j 'A'))
      (min (edMatAux x y f i (j + 1) + 1) (edMatAux x y f (i + 1) j + 1))

def edMat (x y : List Char) (i j : Nat) : Nat := edMatAux x y (i + j) i j

/-- `edit_distance_DP(x, y) = D[-1][-1]`. -/
def edit_distance_DP (x y : List Char) : Nat := edMat x y x.length y.length

theorem edMatAux_right_zero (x y : List Char) :
    ∀ f i, edMatAux x y f i 0 = i := by
  intro f i
  cases f <;> cases i <;> rfl

theorem edMatAux_left_zero (x y : List Char) :
    ∀ f j, edMatAux x y f 0 j = j := by
  intro f j
  cases f <;> cases j <;> rfl

theorem edMatAux_stable (x y : List Char) :
    ∀ f f' i j, i + j ≤ f → i + j ≤ f' →
      edMatAux x y f i j = edMatAux x y f' i j := by
  intro f
  induction f with
  | zero =>
      intro f' i j hf hf'
      have hi : i = 0 := by omega
      subst hi
      rw [edMatAux_left_zero, edMatAux_left_zero]
  | succ f ih =>
      intro f' i j hf hf'
      cases i with
      | zero => rw [edMatAux_left_zero, edMatAux_left_zero]
      | succ i =>
          cases j with
          | zero => rw [edMatAux_right_zero, edMatAux_right_zero]
          | succ j =>
              cases f' with
              | zero => omega
              | succ f' =>
                  show min (edMatAux x y f i j + delta (x.getD i 'A') (y.getD j 'A'))
                      (min (edMatAux x y f i (j + 1) + 1)
                        (edMatAux x y f (i + 1) j + 1))
                    = min (edMatAux x y f' i j + delta (x.getD i 'A') (y.getD j 'A'))
                      (min (edMatAux x y f' i (j + 1) + 1)
                        (edMatAux x y f' (i + 1) j + 1))
                  rw [ih f' i j (by omega) (by omega),
                    ih f' i (j + 1) (by omega) (by omega),
                    ih f' (i + 1) j (by omega) (by omega)]

theorem edMat_right_zero (x y : List Char) (i : Nat) : edMat x y i 0 = i :=
  edMatAux_right_zero x y _ i

theorem edMat_left_zero (x y : List Char) (j : Nat) : edMat x y 0 j = j :=
  edMatAux_left_zero x y _ j

/-- The source recurrence
`D[i][j] = min(D[i-1][j-1] + delta, D[i-1][j] + 1, D[i][j-1] + 1)`. -/
theorem edMat_succ (x y : List Char) (i j : Nat) :
    edMat x y (i + 1) (j + 1)
      = min (edMat x y i j + delta (x.getD i 'A') (y.getD j 'A'))
        (min (edMat x y i (j + 1) + 1) (edMat x y (i + 1) j + 1)) := by
  show min (edMatAux x y (i + 1 + (j + 1) - 1) i j + _)
      (min (edMatAux x y (i + 1 + (j + 1) - 1) i (j + 1) + 1)
        (edMatAux x y (i + 1 + (j + 1) - 1) (i + 1) j + 1)) = _
  rw [edMatAux_stable x y (i + 1 + (j + 1) - 1) (i + j) i j (by omega) (by omega),
    edMatAux_stable x y (i + 1 + (j + 1) - 1) (i + (j + 1)) i (j + 1)
      (by omega) (by omega),
    edMatAux_stable x y (i + 1 + (j + 1) - 1) (i + 1 + j) (i + 1) j
      (by omega) (by omega)]
  rfl

/-- The traceback walk of `traceback_alignment`, as a recursion on `(i, j)`
building the alignment left-to-right (the source appends columns right-to-left
and reverses at the end).  `D[i][j]` lookups are `edMat` — the matrix produced
by `edit_distance_with_matrix`.  Each step decreases `i + j` by exactly one,
so `i + j` fuel suffices and the fuel-out branches are unreachable. -/
def traceback_go (x y : List Char) : Nat → Nat → Nat → List Char × List Char × List String
  | _, 0, 0 => ([], [], [])
  | 0, _ + 1, _ => ([], [], [])
  | 0, 0, _ + 1 => ([], [], [])
  | f + 1, i + 1, 0 =>
    let pr := traceback_go x y f i 0
    (pr.1 ++ [x.getD i 'A'], pr.2.1 ++ ['-'], pr.2.2 ++ ["delete"])
  | f + 1, 0, j + 1 =>
    let pr := traceback_go x y f 0 j
    (pr.1 ++ ['-'], pr.2.1 ++ [y.getD j 'A'], pr.2.2 ++ ["insert"])
  | f + 1, i + 1, j + 1 =>
    let d := delta (x.getD i 'A') (y.getD j 'A')
    if edMat x y (i + 1) (j + 1) = edMat x y i j + d then
      let pr := traceback_go x y f i j
      (pr.1 ++ [x.getD i 'A'], pr.2.1 ++ [y.getD j 'A'],
        pr.2.2 ++ [if d = 0 then "match" else "substitute"])
    else if edMat x y (i + 1) (j + 1) = edMat x y i (j + 1) + 1 then
      let pr := traceback_go x y f i (j + 1)
      (pr.1 ++ [x.getD i 'A'], pr.2.1 ++ ['-'], pr.2.2 ++ ["delete"])
    else
      let pr := traceback_go x y f (i + 1) j
      (pr.1 ++ ['-'], pr.2.1 ++ [y.getD j 'A'], pr.2.2 ++ ["insert"])

/-- `traceback_alignment(x, y, D)` with `D` the matrix of
`edit_distance_with_matrix(x, y)`: `(aligned_x, aligned_y, operations)`. -/
def traceback_alignment (x y : List Char) : List Char × List Char × List String :=
  traceback_go x y (x.length + y.length) x.length y.length

/-- If a value is the three-way minimum but provably neither of the first two
candidates, it is the third (used for the bare `else` insert branch). -/
theorem eq_third_of_min {a b c m : Nat} (hm : m = min a (min b c))
    (h1 : m ≠ a) (h2 : m ≠ b) : m = c := by
  rcases min_choice a (min b c) with h | h
  · exact absurd (hm.trans h) h1
  · rcases min_choice b c with h' | h'
    · exact absurd (hm.trans (h.trans h')) h2
    · exact hm.trans (h.trans h')

theorem take_succ_eq (l : List Char) (i : Nat) (h : i < l.length) :
    l.take (i + 1) = l.take i ++ [l.getD i 'A'] := by
  rw [List.take_succ]
  congr 1
  rw [List.getD_eq_getElem l 'A' h, List.getElem?_eq_getElem h]
  rfl

/-- The operation tags counted by the claim (everything but `match`). -/
def costly_op (o : String) : Bool :=
  decide (o = "substitute" ∨ o = "insert" ∨ o = "delete")

/-- The traceback invariant: at state `(i, j)` the walk has produced an
alignment of `x[:i]` against `y[:j]` whose gap-free projections are those
prefixes and whose costly-operation count is exactly `D[i][j]`. -/
theorem traceback_go_invariant (x y : List Char) :
    ∀ fuel i j, i + j ≤ fuel → i ≤ x.length → j ≤ y.length →
      ((traceback_go x y fuel i j).1.filter (fun c => decide (c ≠ '-'))
          = (x.take i).filter (fun c => decide (c ≠ '-'))) ∧
      ((traceback_go x y fuel i j).2.1.filter (fun c => decide (c ≠ '-'))
          = (y.take j).filter (fun c => decide (c ≠ '-'))) ∧
      ((traceback_go x y fuel i j).2.2.countP costly_op = edMat x y i j) := by
  intro fuel
  induction fuel with
  | zero =>
      intro i j hf hi hj
      have hi0 : i = 0 := by omega
      have hj0 : j = 0 := by omega
      subst hi0; subst hj0
      refine ⟨rfl, rfl, ?_⟩
      rw [edMat_left_zero]
      rfl
  | succ f ih =>
      intro i j hf hi hj
      cases i with
      | zero =>
          cases j with
          | zero =>
              refine ⟨rfl, rfl, ?_⟩
              rw [edMat_left_zero]
              rfl
          | succ j =>
              obtain ⟨ih1, ih2, ih3⟩ := ih 0 j (by omega) (by omega) (by omega)
              have heq : traceback_go x y (f + 1) 0 (j + 1)
                  = ((traceback_go x y f 0 j).1 ++ ['-'],
                     (traceback_go x y f 0 j).2.1 ++ [y.getD j 'A'],
                     (traceback_go x y f 0 j).2.2 ++ ["insert"]) := rfl
              rw [heq]
              refine ⟨?_, ?_, ?_⟩
              · show ((traceback_go x y f 0 j).1 ++ ['-']).filter
                    (fun c => decide (c ≠ '-')) = _
                rw [List.filter_append, ih1]
                simp
              · show ((traceback_go x y f 0 j).2.1 ++ [y.getD j 'A']).filter
                    (fun c => decide (c ≠ '-')) = _
                rw [List.filter_append, ih2, take_succ_eq y j (by omega),
                  List.filter_append]
              · show ((traceback_go x y f 0 j).2.2 ++ ["insert"]).countP costly_op = _
                rw [List.countP_append, ih3, edMat_left_zero, edMat_left_zero]
                have hone : List.countP costly_op ["insert"] = 1 := by decide
                rw [hone]
      | succ i =>
          cases j with
          | zero =>
              obtain ⟨ih1, ih2, ih3⟩ := ih i 0 (by omega) (by omega) (by omega)
              have heq : traceback_go x y (f + 1) (i + 1) 0
                  = ((traceback_go x y f i 0).1 ++ [x.getD i 'A'],
                     (traceback_go x y f i 0).2.1 ++ ['-'],
                     (traceback_go x y f i 0).2.2 ++ ["delete"]) := rfl
              rw [heq]
              refine ⟨?_, ?_, ?_⟩
              · show ((traceback_go x y f i 0).1 ++ [x.getD i 'A']).filter
                    (fun c => decide (c ≠ '-')) = _
                rw [List.filter_append, ih1, take_succ_eq x i (by omega),
                  List.filter_append]
              · show ((traceback_go x y f i 0).2.1 ++ ['-']).filter
                    (fun c => decide (c ≠ '-')) = _
                rw [List.filter_append, ih2]
                simp
              · show ((traceback_go x y f i 0).2.2 ++ ["delete"]).countP costly_op = _
                rw [List.countP_append, ih3, edMat_right_zero, edMat_right_zero]
                have hone : List.countP costly_op ["delete"] = 1 := by decide
                rw [hone]
          | succ j =>
              by_cases h1 : edMat x y (i + 1) (j + 1)
                  = edMat x y i j + delta (x.getD i 'A') (y.getD j 'A')
              · obtain ⟨ih1, ih2, ih3⟩ := ih i j (by omega) (by omega) (by omega)
                have heq : traceback_go x y (f + 1) (i + 1) (j + 1)
                    = ((traceback_go x y f i j).1 ++ [x.getD i 'A'],
                       (traceback_go x y f i j).2.1 ++ [y.getD j 'A'],
                       (traceback_go x y f i j).2.2
                         ++ [if delta (x.getD i 'A') (y.getD j 'A') = 0 then "match"
                             else "substitute"]) := by
                  simp only [traceback_go]
                  rw [if_pos h1]
                rw [heq]
                refine ⟨?_, ?_, ?_⟩
                · show ((traceback_go x y f i j).1 ++ [x.getD i 'A']).filter
                      (fun c => decide (c ≠ '-')) = _
                  rw [List.filter_append, ih1, take_succ_eq x i (by omega),
                    List.filter_append]
                · show ((traceback_go x y f i j).2.1 ++ [y.getD j 'A']).filter
                      (fun c => decide (c ≠ '-')) = _
                  rw [List.filter_append, ih2, take_succ_eq y j (by omega),
                    List.filter_append]
                · show ((traceback_go x y f i j).2.2
                      ++ [if delta (x.getD i 'A') (y.getD j 'A') = 0 then "match"
                          else "substitute"]).countP costly_op = _
                  rw [List.countP_append, ih3, h1]
                  by_cases hd : delta (x.getD i 'A') (y.getD j 'A') = 0
                  · rw [if_pos hd, hd]
                    have hzero : List.countP costly_op ["match"] = 0 := by decide
                    rw [hzero]
                  · have hd1 : delta (x.getD i 'A') (y.getD j 'A') = 1 := by
                      unfold delta at hd ⊢
                      split <;> simp_all
                    rw [if_neg hd, hd1]
                    have hone : List.countP costly_op ["substitute"] = 1 := by decide
                    rw [hone]
              · by_cases h2 : edMat x y (i + 1) (j + 1) = edMat x y i (j + 1) + 1
                · obtain ⟨ih1, ih2, ih3⟩ := ih i (j + 1) (by omega) (by omega) (by omega)
                  have heq : traceback_go x y (f + 1) (i + 1) (j + 1)
                      = ((traceback_go x y f i (j + 1)).1 ++ [x.getD i 'A'],
                         (traceback_go x y f i (j + 1)).2.1 ++ ['-'],
                         (traceback_go x y f i (j + 1)).2.2 ++ ["delete"]) := by
                    simp only [traceback_go]
                    rw [if_neg h1, if_pos h2]
                  rw [heq]
                  refine ⟨?_, ?_, ?_⟩
                  · show ((traceback_go x y f i (j + 1)).1 ++ [x.getD i 'A']).filter
                        (fun c => decide (c ≠ '-')) = _
                    rw [List.filter_append, ih1, take_succ_eq x i (by omega),
                      List.filter_append]
                  · show ((traceback_go x y f i (j + 1)).2.1 ++ ['-']).filter
                        (fun c => decide (c ≠ '-')) = _
                    rw [List.filter_append, ih2]
                    simp
                  · show ((traceback_go x y f i (j + 1)).2.2
                        ++ ["delete"]).countP costly_op = _
                    rw [List.countP_append, ih3, h2]
                    have hone : List.countP costly_op ["delete"] = 1 := by decide
                    rw [hone]
                · have h3 : edMat x y (i + 1) (j + 1) = edMat x y (i + 1) j + 1 :=
                    eq_third_of_min (edMat_succ x y i j) h1 h2
                  obtain ⟨ih1, ih2, ih3⟩ := ih (i + 1) j (by omega) (by omega) (by omega)
                  have heq : traceback_go x y (f + 1) (i + 1) (j + 1)
                      = ((traceback_go x y f (i + 1) j).1 ++ ['-'],
                         (traceback_go x y f (i + 1) j).2.1 ++ [y.getD j 'A'],
                         (traceback_go x y f (i + 1) j).2.2 ++ ["insert"]) := by
                    simp only [traceback_go]
                    rw [if_neg h1, if_neg h2]
                  rw [heq]
                  refine ⟨?_, ?_, ?_⟩
                  · show ((traceback_go x y f (i + 1) j).1 ++ ['-']).filter
                        (fun c => decide (c ≠ '-')) = _
                    rw [List.filter_append, ih1]
                    simp
                  · show ((traceback_go x y f (i + 1) j).2.1 ++ [y.getD j 'A']).filter
                        (fun c => decide (c ≠ '-')) = _
                    rw [List.filter_append, ih2, take_succ_eq y j (by omega),
                      List.filter_append]
                  · show ((traceback_go x y f (i + 1) j).2.2
                        ++ ["insert"]).countP costly_op = _
                    rw [List.countP_append, ih3, h3]
                    have hone : List.countP costly_op ["insert"] = 1 := by decide
                    rw [hone]

/-- C4 (amended): for inputs that do not themselves contain the gap symbol
`'-'`, the alignment returned by `traceback_alignment(x, y, D)` (with `D` the
matrix of `edit_distance_with_matrix(x, y)`) satisfies the round trip —
removing `'-'` from `aligned_x` gives back `x`, removing it from `aligned_y`
gives back `y` — and the number of substitute/insert/delete operations equals
`D[len(x)][len(y)]`.  (For inputs containing `'-'` the round trip fails; see
`traceback_gap_confusion`.) -/
theorem traceback_round_trip (x y : List Char) (hx : '-' ∉ x) (hy : '-' ∉ y) :
    (traceback_alignment x y).1.filter (fun c => decide (c ≠ '-')) = x ∧
      (traceback_alignment x y).2.1.filter (fun c => decide (c ≠ '-')) = y ∧
      (traceback_alignment x y).2.2.countP costly_op
        = edMat x y x.length y.length := by
  obtain ⟨h1, h2, h3⟩ := traceback_go_invariant x y (x.length + y.length)
    x.length y.length le_rfl le_rfl le_rfl
  rw [List.take_length] at h1
  rw [List.take_length] at h2
  refine ⟨?_, ?_, h3⟩
  · rw [show traceback_alignment x y
        = traceback_go x y (x.length + y.length) x.length y.length from rfl, h1]
    apply List.filter_eq_self.mpr
    intro a ha
    simp only [decide_eq_true_eq]
    intro hcontra
    exact hx (hcontra ▸ ha)
  · rw [show traceback_alignment x y
        = traceback_go x y (x.length + y.length) x.length y.length from rfl, h2]
    apply List.filter_eq_self.mpr
    intro a ha
    simp only [decide_eq_true_eq]
    intro hcontra
    exact hy (hcontra ▸ ha)

/-- C4 counterexample: for `x = "-"`, `y = ""` (a pair of strings), the
traceback returns `aligned_x = "-"`, and removing the gap symbol yields `""`,
not `x` — the round trip fails on strings containing the gap symbol. -/
theorem traceback_gap_confusion :
    (traceback_alignment "-".toList "".toList).1.filter
      (fun c => decide (c ≠ '-')) ≠ "-".toList := by decide

/-- Witness for `traceback_round_trip` at `x = "AC"`, `y = "A"`. -/
theorem traceback_round_trip_witness :
    ('-' ∉ "AC".toList ∧ '-' ∉ "A".toList) ∧
      ((traceback_alignment "AC".toList "A".toList).1.filter
          (fun c => decide (c ≠ '-')) = "AC".toList ∧
        (traceback_alignment "AC".toList "A".toList).2.1.filter
          (fun c => decide (c ≠ '-')) = "A".toList ∧
        (traceback_alignment "AC".toList "A".toList).2.2.countP costly_op
          = edMat "AC".toList "A".toList "AC".toList.length "A".toList.length) :=
  ⟨⟨by decide, by decide⟩,
    traceback_round_trip "AC".toList "A".toList (by decide) (by decide)⟩

/-- C7 (amended): `edit_distance_DP("ACGACGT", "TCGTACGT")` returns 2.  (An
explicit 2-operation alignment: substitute A→T, match CG, insert T, match
ACGT; and no single operation transforms one string into the other.) -/
theorem edit_distance_concrete :
    edit_distance_DP "ACGACGT".toList "TCGTACGT".toList = 2 := by decide

/-- C7 counterexample: the distance computed by the code is 2, not the 3 the
spec claims. -/
theorem edit_distance_not_three :
    edit_distance_DP "ACGACGT".toList "TCGTACGT".toList = 2 ∧ (2 : Nat) ≠ 3 :=
  ⟨by decide, by decide⟩

/-! ## src/algorithms/suffix_array.py -/

/-- Result of `build_suffix_array`: the rank table together with the
sentinel-terminated text, a raised `KeyError`, or the (unreachable)
fuel-exhaustion marker of the embedded `while True` loop. -/
inductive SAResult where
  | ok : List (List Nat) → List Char → SAResult
  | keyError : SAResult
  | fuelOut : SAResult
deriving DecidableEq

/-- `dec = {'$': 0, 'A': 1, 'C': 2, 'G': 3, 'T': 4}`; `none` models the
`KeyError` raised by `dec[...]` on any other character. -/
def sa_dec (c : Char) : Option Nat :=
  if c = '$' then some 0
  else if c = 'A' then some 1
  else if c = 'C' then some 2
  else if c = 'G' then some 3
  else if c = 'T' then some 4
  else none

/-- `if not T.endswith('$'): T = T + '$'` followed by `T = T.upper()`. -/
def sa_normalize (t : List Char) : List Char :=
  (if t.getLast? = some '$' then t else t ++ ['$']).map Char.toUpper

/-- The duplicate-rank check at the end of each loop iteration: `flag = 0`
iff no *index* value `j ∈ range(len(row))` occurs more than once in `row`
(note: the check tests only values below `len(row)`, exactly as the source
does). -/
def sa_distinct_flag (row : List Nat) : Bool :=
  (List.range row.length).all (fun v => decide (row.count v ≤ 1))

/-- Iterations of the `while True` loop for `i = 2^n`, `n ≥ 1`: rank the
length-`2^n` slices of the previous row by their position in the sorted list
of distinct slices (Python collects the distinct slices in first-occurrence
order and sorts; sorting the deduplicated list yields the same sorted distinct
list), append the row, and stop once the flag check passes.  Only the first
iteration (`i == 1`, handled in `build_suffix_array`) can raise `KeyError`,
so the only failure here is the artificial fuel exhaustion, `none`. -/
def sa_loop (T : List Char) : Nat → List Nat → Nat → Option (List (List Nat))
  | 0, _, _ => none
  | fuel + 1, prev, n =>
    let i := 2 ^ n
    let slices := (List.range T.length).map (fun j => (prev.drop j).take i)
    let l := (slices.dedup).insertionSort (fun a b => a ≤ b)
    let row := slices.map (fun v => l.indexOf v)
    if sa_distinct_flag row then some [row]
    else
      match sa_loop T fuel row (n + 1) with
      | none => none
      | some rest => some (row :: rest)

/-- `build_suffix_array(T)`: returns `(table, T)`; the first iteration ranks
single characters through `dec` and can raise `KeyError`. -/
def build_suffix_array (text : List Char) : SAResult :=
  let T := sa_normalize text
  match T.mapM sa_dec with
  | none => SAResult.keyError
  | some row0 =>
    if sa_distinct_flag row0 then SAResult.ok [row0] T
    else
      match sa_loop T (T.length + 2) row0 1 with
      | none => SAResult.fuelOut
      | some rest => SAResult.ok (row0 :: rest) T

/-- `sorted(range(len(final_ranks)), key=lambda k: final_ranks[k])` — the
suffix order induced by the final rank row (as in `format_suffix_array` and
in the claim's reading of the table). -/
def sa_positions (row : List Nat) : List Nat :=
  (List.range row.length).insertionSort (fun a b => row.getD a 0 ≤ row.getD b 0)

/-- Sanity: on `"AAC"` the doubling loop runs one extra round and produces a
correct table (final order `[3, 0, 1, 2]`: `$ < AAC$ < AC$ < C$`). -/
theorem suffix_array_example :
    build_suffix_array "AAC".toList
      = SAResult.ok [[1, 1, 2, 0], [1, 2, 3, 0]] "AAC$".toList := by decide

/-- C5 failing input: on `text = "TT"` the first row of ranks is `[4, 4, 0]`;
the flag check only tests the values `0, 1, 2 ∈ range(3)` and never notices
that the rank 4 is duplicated, so the loop stops after one iteration.
Ordering the positions by this final row gives `[2, 0, 1]`, but the suffix at
position 0 (`"TT$"`) is *not* lexicographically below the suffix at position 1
(`"T$"`): the produced order is not strictly increasing, contradicting the
claim (with `'$' < 'A' < 'C' < 'G' < 'T'`, the character order used by the
rank map `dec`). -/
theorem suffix_array_wrong_on_TT :
    build_suffix_array "TT".toList = SAResult.ok [[4, 4, 0]] "TT$".toList ∧
      sa_positions [4, 4, 0] = [2, 0, 1] ∧
      ¬ List.Lex (· < ·) ("TT$".toList.drop 0) ("TT$".toList.drop 1) := by
  refine ⟨by decide, by decide, by decide⟩

theorem mapM_option_none {α β : Type} (f : α → Option β) :
    ∀ l : List α, (∃ c ∈ l, f c = none) → l.mapM f = none := by
  intro l
  induction l with
  | nil => rintro ⟨c, hc, _⟩; simp at hc
  | cons a t ih =>
      rintro ⟨c, hc, hf⟩
      rw [List.mapM_cons]
      rcases List.mem_cons.mp hc with rfl | hmem
      · rw [hf]
        rfl
      · cases hfa : f a with
        | none => rfl
        | some b =>
            rw [ih ⟨c, hmem, hf⟩]
            rfl

/-- C10: `build_suffix_array` is not total over the documented alphabet
`{A, C, G, T, N}`: whenever the sentinel-terminated, uppercased text contains
any character outside `{'$', 'A', 'C', 'G', 'T'}` (for example the base `N`),
the first-iteration rank lookup `dec[T[j]]` raises `KeyError` and no result is
returned. -/
theorem suffix_array_key_error (text : List Char)
    (h : ∃ c ∈ sa_normalize text, sa_dec c = none) :
    build_suffix_array text = SAResult.keyError := by
  have hnone : (sa_normalize text).mapM sa_dec = none :=
    mapM_option_none sa_dec _ h
  show (match (sa_normalize text).mapM sa_dec with
    | none => SAResult.keyError
    | some row0 =>
      if sa_distinct_flag row0 then SAResult.ok [row0] (sa_normalize text)
      else
        match sa_loop (sa_normalize text) ((sa_normalize text).length + 2) row0 1 with
        | none => SAResult.fuelOut
        | some rest => SAResult.ok (row0 :: rest) (sa_normalize text)) = SAResult.keyError
  rw [hnone]

/-- Witness for `suffix_array_key_error` at `text = "ACGN"`. -/
theorem suffix_array_key_error_witness :
    (∃ c ∈ sa_normalize "ACGN".toList, sa_dec c = none) ∧
      build_suffix_array "ACGN".toList = SAResult.keyError :=
  ⟨by decide, suffix_array_key_error _ (by decide)⟩

end BioAnalyzer
